import Mathlib

/-
  Verification of the concpool bounded-concurrency worker pool
  (package concpool, file pool.go).

  The pool is embedded as a small-step transition system:
  - the Pool structure mirrors the Go struct (channels are represented by
    their buffered contents: the results channel as a list of at most one
    TaskResult, the two capacity-1 signalling channels as Booleans);
  - a task body of type func() error is modelled by the error value it
    returns (none = nil, some e = a non-nil error e), since bodies are
    opaque to the pool and are assumed to return;
  - each worker goroutine spawned inside checkQueue is a process with a
    program counter (WorkerPhase) tracking its four visible actions:
    run the body, send the outcome on results, decrement running under
    the lock, and fire the non-blocking attemptCheck signal;
  - the client thread (ClientPhase) submits a fixed list of tasks via Run
    (pushToQueue then attemptCheck, two separate atomic actions) and then
    calls Wait, whose select loop is modelled by one nondeterministic
    transition per ready channel, exactly as a Go select chooses among
    ready cases;
  - critical sections under p.mu are single atomic transitions; the gap in
    checkQueue between releasing the lock and calling attemptTermination
    is kept as a separate transition (ClientPhase.waitTerm).

  startedLog is a history variable recording, in order, every task handed
  to a worker goroutine; it is written exactly where checkQueue launches
  workers and is read by no transition, so it only observes the system.
-/

namespace GoConc

/-- TaskResult from pool.go: the outcome of a single task. -/
structure TaskResult (ε : Type) where
  Success : Bool
  Err : Option ε

/-- The Pool struct from pool.go. Channels are modelled by their buffered
contents: results (capacity 1) as a list, the two capacity-1 signal
channels as Booleans saying whether a token is buffered. -/
structure Pool (ε : Type) where
  maxCount : Int
  queue : List (Option ε)
  running : Int
  results : List (TaskResult ε)
  terminated : Bool
  terminationChannel : Bool
  runCheckChannel : Bool

/-- New from pool.go: clamps a non-positive maxCount to 1 and returns a
fresh pool with empty queue and empty channels. -/
def New (ε : Type) (maxCount : Int) : Pool ε :=
  let m : Int := if maxCount ≤ 0 then 1 else maxCount
  { maxCount := m, queue := [], running := 0, results := [],
    terminated := false, terminationChannel := false, runCheckChannel := false }

/-- pushToQueue from pool.go: append the task at the tail of the queue
under the lock. -/
def pushToQueue (p : Pool ε) (t : Option ε) : Pool ε :=
  { p with queue := p.queue ++ [t] }

/-- The outcome computed by the worker goroutine body in checkQueue:
a nil error yields Success with no error, a non-nil error err yields
a failure carrying err. -/
def taskOutcome (e : Option ε) : TaskResult ε :=
  match e with
  | some err => { Success := false, Err := some err }
  | none => { Success := true, Err := none }

/-- The effect of one call to checkQueue on the lock-protected state:
the final queue and running count, the list of tasks launched (in launch
order), and whether the empty-and-idle branch was taken, i.e. whether
attemptTermination is to be called after the lock is released. -/
structure CheckOut (ε : Type) where
  queue : List (Option ε)
  running : Int
  started : List (Option ε)
  terminate : Bool

/-- The for-loop of checkQueue: up to the given number of iterations
(available), pop the head of the queue and launch it, incrementing
running; when the queue empties, request termination exactly when
running is zero at that point. -/
def checkLoop : Nat → List (Option ε) → Int → CheckOut ε
  | 0, q, r => ⟨q, r, [], false⟩
  | _ + 1, [], r => ⟨[], r, [], r == 0⟩
  | n + 1, t :: rest, r =>
    let out := checkLoop n rest (r + 1)
    ⟨out.queue, out.running, t :: out.started, out.terminate⟩

/-- checkQueue from pool.go, as a function of the lock-protected fields:
a no-op when terminated, a no-op when no capacity is available, otherwise
the admission loop with fuel available = maxCount - running. -/
def checkQueue (terminated : Bool) (maxCount running : Int)
    (queue : List (Option ε)) : CheckOut ε :=
  if terminated then ⟨queue, running, [], false⟩
  else if maxCount - running ≤ 0 then ⟨queue, running, [], false⟩
  else checkLoop (maxCount - running).toNat queue running

theorem checkLoop_started (f : Nat) (q : List (Option ε)) (r : Int) :
    (checkLoop f q r).started = q.take f := by
  induction f generalizing q r with
  | zero => simp [checkLoop]
  | succ n ih =>
    cases q with
    | nil => simp [checkLoop]
    | cons t rest => simp [checkLoop, ih]

theorem checkLoop_queue (f : Nat) (q : List (Option ε)) (r : Int) :
    (checkLoop f q r).queue = q.drop f := by
  induction f generalizing q r with
  | zero => simp [checkLoop]
  | succ n ih =>
    cases q with
    | nil => simp [checkLoop]
    | cons t rest => simp [checkLoop, ih]

theorem checkLoop_running (f : Nat) (q : List (Option ε)) (r : Int) :
    (checkLoop f q r).running = r + (q.take f).length := by
  induction f generalizing q r with
  | zero => simp [checkLoop]
  | succ n ih =>
    cases q with
    | nil => simp [checkLoop]
    | cons t rest =>
      simp only [checkLoop, ih, List.take, List.length_cons]
      push_cast
      ring

theorem checkLoop_terminate (f : Nat) (q : List (Option ε)) (r : Int) :
    (checkLoop f q r).terminate = true ↔ (q.length < f ∧ r + q.length = 0) := by
  induction f generalizing q r with
  | zero => simp [checkLoop]
  | succ n ih =>
    cases q with
    | nil =>
      simp [checkLoop]
    | cons t rest =>
      simp only [checkLoop, ih, List.length_cons]
      constructor
      · rintro ⟨h1, h2⟩
        exact ⟨by omega, by omega⟩
      · rintro ⟨h1, h2⟩
        exact ⟨by omega, by omega⟩

/-- Program counter of one worker goroutine spawned by checkQueue:
it runs the task body, sends the outcome on the results channel (blocking
while the capacity-1 buffer is full), decrements running under the lock,
and finally performs attemptCheck. -/
inductive WorkerPhase (ε : Type) where
  | bodyRun (t : Option ε)
  | sendRes (r : TaskResult ε)
  | decRun
  | postCheck

/-- Program counter of the client thread: it submits each task with Run
(pushToQueue, then the separate non-blocking attemptCheck), then calls
Wait, which performs an initial checkQueue and loops over a select on the
three channels. waitTerm is the point inside checkQueue where the lock
has been released and attemptTermination is about to run. -/
inductive ClientPhase (ε : Type) where
  | submit (ts : List (Option ε))
  | submitCheck (ts : List (Option ε))
  | waitInit
  | waitTerm (acc : List (TaskResult ε))
  | waitLoop (acc : List (TaskResult ε))
  | ret (acc : List (TaskResult ε))

/-- A global configuration: the pool fields, the buffered channel
contents, the live worker goroutines, the client thread position and the
history variable startedLog listing every launched task in launch
order. -/
structure Conf (ε : Type) where
  maxCount : Int
  queue : List (Option ε)
  running : Int
  terminated : Bool
  resultsBuf : List (TaskResult ε)
  termTok : Bool
  checkTok : Bool
  workers : List (WorkerPhase ε)
  startedLog : List (Option ε)
  client : ClientPhase ε

/-- attemptTermination from pool.go: under the lock, a no-op if already
terminated, otherwise set the flag and do a non-blocking send on the
capacity-1 termination channel. -/
def attemptTermination (c : Conf ε) : Conf ε :=
  if c.terminated then c
  else { c with terminated := true, termTok := true }

/-- attemptCheck from pool.go: non-blocking send of a token on the
capacity-1 runCheckChannel; a duplicate token is dropped, which on the
buffered-contents representation is exactly setting the flag. -/
def attemptCheck (c : Conf ε) : Conf ε :=
  { c with checkTok := true }

/-- One whole critical section of checkQueue applied to a configuration:
update queue and running, spawn the launched workers, extend the history
log and either proceed to attemptTermination (waitTerm) or return to the
select loop (waitLoop) with the accumulated results acc. -/
def applyCheck (c : Conf ε) (acc : List (TaskResult ε)) : Conf ε :=
  { c with
    queue := (checkQueue c.terminated c.maxCount c.running c.queue).queue
    running := (checkQueue c.terminated c.maxCount c.running c.queue).running
    workers := c.workers ++
      (checkQueue c.terminated c.maxCount c.running c.queue).started.map WorkerPhase.bodyRun
    startedLog := c.startedLog ++
      (checkQueue c.terminated c.maxCount c.running c.queue).started
    client := if (checkQueue c.terminated c.maxCount c.running c.queue).terminate
      then ClientPhase.waitTerm acc else ClientPhase.waitLoop acc }

/-- The interleaving semantics: one transition per atomic action of the
client thread or of a worker goroutine. The three waitLoop transitions
model the Go select, which nondeterministically picks any ready case. -/
inductive Step : Conf ε → Conf ε → Prop where
  | push (c : Conf ε) (t : Option ε) (ts : List (Option ε)) :
      c.client = ClientPhase.submit (t :: ts) →
      Step c { c with queue := c.queue ++ [t], client := ClientPhase.submitCheck ts }
  | submitSignal (c : Conf ε) (ts : List (Option ε)) :
      c.client = ClientPhase.submitCheck ts →
      Step c (attemptCheck { c with client := ClientPhase.submit ts })
  | callWait (c : Conf ε) :
      c.client = ClientPhase.submit [] →
      Step c { c with client := ClientPhase.waitInit }
  | initCheck (c : Conf ε) :
      c.client = ClientPhase.waitInit →
      Step c (applyCheck c [])
  | recvCheck (c : Conf ε) (acc : List (TaskResult ε)) :
      c.client = ClientPhase.waitLoop acc → c.checkTok = true →
      Step c (applyCheck { c with checkTok := false } acc)
  | recvResult (c : Conf ε) (acc : List (TaskResult ε)) (r : TaskResult ε)
      (rest : List (TaskResult ε)) :
      c.client = ClientPhase.waitLoop acc → c.resultsBuf = r :: rest →
      Step c { c with resultsBuf := rest, client := ClientPhase.waitLoop (acc ++ [r]) }
  | recvTerm (c : Conf ε) (acc : List (TaskResult ε)) :
      c.client = ClientPhase.waitLoop acc → c.termTok = true →
      Step c { c with termTok := false, client := ClientPhase.ret acc }
  | fireTerm (c : Conf ε) (acc : List (TaskResult ε)) :
      c.client = ClientPhase.waitTerm acc →
      Step c (attemptTermination { c with client := ClientPhase.waitLoop acc })
  | runBody (c : Conf ε) (l1 l2 : List (WorkerPhase ε)) (t : Option ε) :
      c.workers = l1 ++ WorkerPhase.bodyRun t :: l2 →
      Step c { c with workers := l1 ++ WorkerPhase.sendRes (taskOutcome t) :: l2 }
  | sendResult (c : Conf ε) (l1 l2 : List (WorkerPhase ε)) (r : TaskResult ε) :
      c.workers = l1 ++ WorkerPhase.sendRes r :: l2 → c.resultsBuf = [] →
      Step c { c with resultsBuf := [r], workers := l1 ++ WorkerPhase.decRun :: l2 }
  | decRunning (c : Conf ε) (l1 l2 : List (WorkerPhase ε)) :
      c.workers = l1 ++ WorkerPhase.decRun :: l2 →
      Step c { c with running := c.running - 1, workers := l1 ++ WorkerPhase.postCheck :: l2 }
  | workerSignal (c : Conf ε) (l1 l2 : List (WorkerPhase ε)) :
      c.workers = l1 ++ WorkerPhase.postCheck :: l2 →
      Step c (attemptCheck { c with workers := l1 ++ l2 })

/-- Initial configuration: the pool returned by New, no workers yet, and
a client about to submit the given list of tasks and then call Wait. -/
def init (n : Int) (ts : List (Option ε)) : Conf ε :=
  let p := New ε n
  { maxCount := p.maxCount, queue := p.queue, running := p.running,
    terminated := p.terminated, resultsBuf := p.results,
    termTok := p.terminationChannel, checkTok := p.runCheckChannel,
    workers := [], startedLog := [], client := ClientPhase.submit ts }

/-- Reachability along the interleaving semantics. -/
def Reachable (a b : Conf ε) : Prop := Relation.ReflTransGen Step a b

/-- Tasks the client has not yet pushed onto the queue. -/
def clientRemaining : ClientPhase ε → List (Option ε)
  | ClientPhase.submit ts => ts
  | ClientPhase.submitCheck ts => ts
  | _ => []

/-- The result list accumulated so far by Wait. -/
def clientAcc : ClientPhase ε → List (TaskResult ε)
  | ClientPhase.waitTerm acc => acc
  | ClientPhase.waitLoop acc => acc
  | ClientPhase.ret acc => acc
  | _ => []

/-- A worker counts towards the running field until it has executed its
running-decrement. -/
def activeW : WorkerPhase ε → Bool
  | WorkerPhase.postCheck => false
  | _ => true

/-- Number of workers currently counted by the running field. -/
def countActive (ws : List (WorkerPhase ε)) : Nat := ws.countP activeW

theorem countActive_append (a b : List (WorkerPhase ε)) :
    countActive (a ++ b) = countActive a + countActive b := by
  simp [countActive, List.countP_append]

theorem countActive_map_bodyRun (ts : List (Option ε)) :
    countActive (ts.map WorkerPhase.bodyRun) = ts.length := by
  induction ts with
  | nil => simp [countActive]
  | cons t rest ih =>
    simp only [List.map_cons, countActive, List.countP_cons] at *
    simp [activeW, ih]

/-- Client positions before Wait has done anything: while the client is
still submitting or about to run the initial checkQueue, no worker exists
and no result or termination signal has been produced. -/
def preW : ClientPhase ε → Prop
  | ClientPhase.submit _ => True
  | ClientPhase.submitCheck _ => True
  | ClientPhase.waitInit => True
  | _ => False

/-- Client positions at which a non-empty queue guarantees a buffered
check token: after each Run the attemptCheck signal has been sent, and it
is not consumed before the Wait loop starts. -/
def preQ : ClientPhase ε → Prop
  | ClientPhase.submit _ => True
  | ClientPhase.waitInit => True
  | _ => False

/-- The inductive invariant of the system: m is the clamped limit fixed
at construction, ts the full submission list. -/
structure Inv (m : Int) (ts : List (Option ε)) (c : Conf ε) : Prop where
  hmc : c.maxCount = m
  hmax : 1 ≤ m
  hcount : c.running = (countActive c.workers : Int)
  hcap : c.running ≤ m
  hbuf : c.resultsBuf.length ≤ 1
  hpre : preW c.client →
    c.workers = [] ∧ c.resultsBuf = [] ∧ c.running = 0 ∧
      c.terminated = false ∧ c.termTok = false
  hqtok : preQ c.client → c.queue ≠ [] → c.checkTok = true
  hterm : c.terminated = true →
    c.termTok = true ∨ ∃ acc, c.client = ClientPhase.ret acc
  hidle : ∀ acc, c.client = ClientPhase.waitLoop acc → c.workers = [] →
    c.checkTok = false → c.terminated = true
  hwt : ∀ acc, c.client = ClientPhase.waitTerm acc →
    c.queue = [] ∧ c.running = 0 ∧ c.terminated = false
  hlog : c.startedLog ++ (c.queue ++ clientRemaining c.client) = ts

theorem inv_init (n : Int) (ts : List (Option ε)) :
    Inv (if n ≤ 0 then 1 else n) ts (init n ts) := by
  refine ⟨rfl, by split <;> omega, by simp [init, New, countActive],
    by simp [init, New]; split <;> omega, by simp [init, New],
    fun _ => ⟨rfl, rfl, rfl, rfl, rfl⟩,
    fun _ hq => absurd rfl hq,
    fun h => by simp [init, New] at h,
    fun acc h => by simp [init, New] at h,
    fun acc h => by simp [init, New] at h,
    by simp [init, New, clientRemaining]⟩

theorem inv_applyCheck {m : Int} {ts : List (Option ε)} {c : Conf ε}
    {acc : List (TaskResult ε)}
    (hmc : c.maxCount = m) (hmax : 1 ≤ m)
    (hcount : c.running = (countActive c.workers : Int))
    (hcap : c.running ≤ m)
    (hbuf : c.resultsBuf.length ≤ 1)
    (htk : c.terminated = true → c.termTok = true)
    (hlog : c.startedLog ++ c.queue = ts) :
    Inv m ts (applyCheck c acc) := by
  by_cases hb : c.terminated = true
  · have hout : checkQueue c.terminated c.maxCount c.running c.queue
        = (⟨c.queue, c.running, [], false⟩ : CheckOut ε) := by
      simp [checkQueue, hb]
    simp only [applyCheck, hout]
    exact ⟨hmc, hmax, by simpa using hcount, hcap, hbuf,
      fun h => by simp [preW] at h,
      fun h => by simp [preQ] at h,
      fun h => Or.inl (htk h),
      fun acc' hac hw htok => hb,
      fun acc' hac => by simp at hac,
      by simpa [clientRemaining] using hlog⟩
  · by_cases hav : c.maxCount - c.running ≤ 0
    · have hout : checkQueue c.terminated c.maxCount c.running c.queue
          = (⟨c.queue, c.running, [], false⟩ : CheckOut ε) := by
        have hb' : c.terminated = false := by
          cases hcb : c.terminated
          · rfl
          · exact absurd hcb hb
        simp [checkQueue, hb', hav]
      simp only [applyCheck, hout]
      refine ⟨hmc, hmax, by simpa using hcount, hcap, hbuf,
        fun h => by simp [preW] at h,
        fun h => by simp [preQ] at h,
        fun h => absurd h hb,
        fun acc' hac hw htok => ?_,
        fun acc' hac => by simp at hac,
        by simpa [clientRemaining] using hlog⟩
      -- with no worker alive, running is 0 and capacity m >= 1 is free,
      -- contradicting the no-capacity branch
      exfalso
      simp only [List.map_nil, List.append_nil] at hw
      rw [hw] at hcount
      simp [countActive] at hcount
      omega
    · have hb' : c.terminated = false := by
        cases hcb : c.terminated
        · rfl
        · exact absurd hcb hb
      have hout : checkQueue c.terminated c.maxCount c.running c.queue
          = checkLoop (c.maxCount - c.running).toNat c.queue c.running := by
        simp [checkQueue, hb', hav]
      have hf : (((c.maxCount - c.running).toNat : Nat) : Int)
          = c.maxCount - c.running := Int.toNat_of_nonneg (by omega)
      have hfpos : 1 ≤ (c.maxCount - c.running).toNat := by omega
      simp only [applyCheck, hout, checkLoop_started, checkLoop_queue,
        checkLoop_running]
      have htake : ((c.queue.take (c.maxCount - c.running).toNat).length : Int)
          ≤ c.maxCount - c.running := by
        have := List.length_take_le (c.maxCount - c.running).toNat c.queue
        omega
      cases hT : (checkLoop (c.maxCount - c.running).toNat c.queue c.running).terminate with
      | false =>
        simp only [hT, if_false, Bool.false_eq_true]
        refine ⟨hmc, hmax, ?_, by dsimp only; omega, hbuf,
          fun h => by simp [preW] at h,
          fun h => by simp [preQ] at h,
          fun h => absurd h hb,
          fun acc' hac hw htok => ?_,
          fun acc' hac => by simp at hac,
          ?_⟩
        · dsimp only
          rw [countActive_append, countActive_map_bodyRun]
          push_cast
          omega
        · -- if no worker exists after the admission loop, the queue was
          -- empty with running = 0, so the loop would have terminated
          exfalso
          dsimp only at hw
          rw [List.append_eq_nil] at hw
          obtain ⟨hw1, hw2⟩ := hw
          rw [List.map_eq_nil_iff] at hw2
          have hq0 : c.queue = [] := by
            rcases List.take_eq_nil_iff.mp hw2 with h | h
            · omega
            · exact h
          have hr0 : c.running = 0 := by
            rw [hw1] at hcount
            simpa [countActive] using hcount
          have : (checkLoop (c.maxCount - c.running).toNat c.queue c.running).terminate
              = true := by
            rw [checkLoop_terminate]
            constructor
            · rw [hq0]
              simp only [List.length_nil]
              omega
            · rw [hq0, hr0]
              simp
          rw [hT] at this
          exact absurd this (by simp)
        · simp only [clientRemaining, List.append_nil, List.append_assoc,
            List.take_append_drop]
          exact hlog
      | true =>
        obtain ⟨hlen, hzero⟩ := (checkLoop_terminate _ _ _).mp hT
        simp only [hT, if_true]
        have hdrop : c.queue.drop (c.maxCount - c.running).toNat = [] := by
          rw [List.drop_eq_nil_iff]
          omega
        have htakeall : c.queue.take (c.maxCount - c.running).toNat = c.queue :=
          List.take_of_length_le (by omega)
        refine ⟨hmc, hmax, ?_, ?_, hbuf,
          fun h => by simp [preW] at h,
          fun h => by simp [preQ] at h,
          fun h => absurd h hb,
          fun acc' hac => by simp at hac,
          fun acc' hac => ⟨hdrop, by dsimp only; rw [htakeall]; omega, hb'⟩,
          ?_⟩
        · dsimp only
          rw [countActive_append, countActive_map_bodyRun]
          push_cast
          omega
        · dsimp only
          rw [htakeall]
          omega
        · simp only [clientRemaining, List.append_nil, List.append_assoc,
            List.take_append_drop]
          exact hlog

theorem countActive_mid (l1 l2 : List (WorkerPhase ε)) (w : WorkerPhase ε) :
    countActive (l1 ++ w :: l2)
      = countActive l1 + countActive l2 + (if activeW w then 1 else 0) := by
  rw [countActive_append]
  simp only [countActive, List.countP_cons]
  omega

theorem inv_step {m : Int} {ts : List (Option ε)} {c c' : Conf ε}
    (hI : Inv m ts c) (h : Step c c') : Inv m ts c' := by
  obtain ⟨hmc, hmax, hcount, hcap, hbuf, hpre, hqtok, hterm, hidle, hwt, hlog⟩ := hI
  cases h with
  | push t ts0 hcl =>
    obtain ⟨hw0, hb0, hr0, hT0, htk0⟩ := hpre (by rw [hcl]; trivial)
    refine ⟨hmc, hmax, hcount, hcap, hbuf,
      fun _ => ⟨hw0, hb0, hr0, hT0, htk0⟩,
      fun h => by simp [preQ] at h,
      ?_,
      fun acc hac => by simp at hac,
      fun acc hac => by simp at hac,
      ?_⟩
    · intro hT
      dsimp only at hT
      rw [hT0] at hT
      exact absurd hT (by simp)
    · rw [hcl] at hlog
      simpa [clientRemaining, List.append_assoc] using hlog
  | submitSignal ts0 hcl =>
    obtain ⟨hw0, hb0, hr0, hT0, htk0⟩ := hpre (by rw [hcl]; trivial)
    refine ⟨hmc, hmax, hcount, hcap, hbuf,
      fun _ => ⟨hw0, hb0, hr0, hT0, htk0⟩,
      fun _ _ => rfl,
      ?_,
      fun acc hac => by simp [attemptCheck] at hac,
      fun acc hac => by simp [attemptCheck] at hac,
      ?_⟩
    · intro hT
      simp only [attemptCheck] at hT
      rw [hT0] at hT
      exact absurd hT (by simp)
    · rw [hcl] at hlog
      simpa [attemptCheck, clientRemaining] using hlog
  | callWait hcl =>
    obtain ⟨hw0, hb0, hr0, hT0, htk0⟩ := hpre (by rw [hcl]; trivial)
    refine ⟨hmc, hmax, hcount, hcap, hbuf,
      fun _ => ⟨hw0, hb0, hr0, hT0, htk0⟩,
      fun _ hq => hqtok (by rw [hcl]; trivial) hq,
      ?_,
      fun acc hac => by simp at hac,
      fun acc hac => by simp at hac,
      ?_⟩
    · intro hT
      dsimp only at hT
      rw [hT0] at hT
      exact absurd hT (by simp)
    · rw [hcl] at hlog
      simpa [clientRemaining] using hlog
  | initCheck hcl =>
    obtain ⟨hw0, hb0, hr0, hT0, htk0⟩ := hpre (by rw [hcl]; trivial)
    refine inv_applyCheck hmc hmax hcount hcap hbuf ?_ ?_
    · intro hT
      rw [hT0] at hT
      exact absurd hT (by simp)
    · rw [hcl] at hlog
      simpa [clientRemaining] using hlog
  | recvCheck acc hcl htokc =>
    refine inv_applyCheck hmc hmax hcount hcap hbuf ?_ ?_
    · intro hT
      rcases hterm hT with h | ⟨acc', h⟩
      · exact h
      · rw [hcl] at h
        exact absurd h (by simp)
    · rw [hcl] at hlog
      simpa [clientRemaining] using hlog
  | recvResult acc r rest hcl hbufc =>
    refine ⟨hmc, hmax, hcount, hcap, ?_,
      fun h => by simp [preW] at h,
      fun h => by simp [preQ] at h,
      ?_,
      fun acc' hac hw htok => hidle acc hcl hw htok,
      fun acc' hac => by simp at hac,
      ?_⟩
    · dsimp only
      rw [hbufc] at hbuf
      simp only [List.length_cons] at hbuf
      omega
    · intro hT
      rcases hterm hT with h | ⟨acc', h⟩
      · exact Or.inl h
      · rw [hcl] at h
        exact absurd h (by simp)
    · rw [hcl] at hlog
      simpa [clientRemaining] using hlog
  | recvTerm acc hcl htokt =>
    refine ⟨hmc, hmax, hcount, hcap, hbuf,
      fun h => by simp [preW] at h,
      fun h => by simp [preQ] at h,
      fun hT => Or.inr ⟨acc, rfl⟩,
      fun acc' hac => by simp at hac,
      fun acc' hac => by simp at hac,
      ?_⟩
    rw [hcl] at hlog
    simpa [clientRemaining] using hlog
  | fireTerm acc hcl =>
    obtain ⟨hq0, hr0, hT0⟩ := hwt acc hcl
    have hat : attemptTermination { c with client := ClientPhase.waitLoop acc }
        = { c with terminated := true, termTok := true, client := ClientPhase.waitLoop acc } := by
      simp [attemptTermination, hT0]
    rw [hat]
    refine ⟨hmc, hmax, hcount, hcap, hbuf,
      fun h => by simp [preW] at h,
      fun h => by simp [preQ] at h,
      fun _ => Or.inl rfl,
      fun acc' hac hw htok => rfl,
      fun acc' hac => by simp at hac,
      ?_⟩
    rw [hcl] at hlog
    simpa [clientRemaining] using hlog
  | runBody l1 l2 t hws =>
    refine ⟨hmc, hmax, ?_, hcap, hbuf,
      fun h => by
        have hn := (hpre h).1
        rw [hws] at hn
        simp at hn,
      fun h hq => hqtok h hq,
      fun hT => hterm hT,
      fun acc hac hw htok => by
        dsimp only at hw
        simp at hw,
      fun acc hac => hwt acc hac,
      hlog⟩
    dsimp only
    rw [hws] at hcount
    rw [countActive_mid]
    rw [countActive_mid] at hcount
    simpa [activeW] using hcount
  | sendResult l1 l2 r hws hbufc =>
    refine ⟨hmc, hmax, ?_, hcap, by dsimp only; simp,
      fun h => by
        have hn := (hpre h).1
        rw [hws] at hn
        simp at hn,
      fun h hq => hqtok h hq,
      fun hT => hterm hT,
      fun acc hac hw htok => by
        dsimp only at hw
        simp at hw,
      fun acc hac => hwt acc hac,
      hlog⟩
    dsimp only
    rw [hws] at hcount
    rw [countActive_mid]
    rw [countActive_mid] at hcount
    simpa [activeW] using hcount
  | decRunning l1 l2 hws =>
    have hc1 : countActive (l1 ++ WorkerPhase.decRun :: l2)
        = countActive l1 + countActive l2 + 1 := by
      rw [countActive_mid]
      simp [activeW]
    have hc2 : countActive (l1 ++ WorkerPhase.postCheck :: l2)
        = countActive l1 + countActive l2 := by
      rw [countActive_mid]
      simp [activeW]
    refine ⟨hmc, hmax, ?_, by dsimp only; omega, hbuf,
      fun h => by
        have hn := (hpre h).1
        rw [hws] at hn
        simp at hn,
      fun h hq => hqtok h hq,
      fun hT => hterm hT,
      fun acc hac hw htok => by
        dsimp only at hw
        simp at hw,
      ?_,
      hlog⟩
    · dsimp only
      rw [hws, hc1] at hcount
      rw [hc2]
      push_cast at hcount ⊢
      omega
    · intro acc hac
      -- at waitTerm the running count is zero, so no worker can still be
      -- about to decrement it
      exfalso
      obtain ⟨hq0, hr0, hT0⟩ := hwt acc hac
      rw [hws, hc1] at hcount
      omega
  | workerSignal l1 l2 hws =>
    have hc2 : countActive (l1 ++ WorkerPhase.postCheck :: l2)
        = countActive l1 + countActive l2 := by
      rw [countActive_mid]
      simp [activeW]
    refine ⟨hmc, hmax, ?_, hcap, hbuf,
      fun h => by
        have hn := (hpre h).1
        rw [hws] at hn
        simp at hn,
      fun h hq => rfl,
      fun hT => hterm hT,
      fun acc hac hw htok => by simp [attemptCheck] at htok,
      fun acc hac => hwt acc hac,
      hlog⟩
    simp only [attemptCheck]
    rw [hws, hc2] at hcount
    rw [countActive_append]
    exact hcount

theorem inv_reach {n : Int} {ts : List (Option ε)} {c : Conf ε}
    (h : Reachable (init n ts) c) : Inv (if n ≤ 0 then 1 else n) ts c := by
  induction h with
  | refl => exact inv_init n ts
  | tail hr hs ih => exact inv_step ih hs

theorem progress {m : Int} {ts : List (Option ε)} {c : Conf ε} (hI : Inv m ts c) :
    (∃ c', Step c c') ∨ ∃ acc, c.client = ClientPhase.ret acc := by
  obtain ⟨hmc, hmax, hcount, hcap, hbuf, hpre, hqtok, hterm, hidle, hwt, hlog⟩ := hI
  cases hcl : c.client with
  | submit ts0 =>
    cases ts0 with
    | nil => exact Or.inl ⟨_, Step.callWait c hcl⟩
    | cons t rest => exact Or.inl ⟨_, Step.push c t rest hcl⟩
  | submitCheck ts0 => exact Or.inl ⟨_, Step.submitSignal c ts0 hcl⟩
  | waitInit => exact Or.inl ⟨_, Step.initCheck c hcl⟩
  | waitTerm acc => exact Or.inl ⟨_, Step.fireTerm c acc hcl⟩
  | ret acc => exact Or.inr ⟨acc, rfl⟩
  | waitLoop acc =>
    cases htok : c.checkTok with
    | true => exact Or.inl ⟨_, Step.recvCheck c acc hcl htok⟩
    | false =>
      cases htt : c.termTok with
      | true => exact Or.inl ⟨_, Step.recvTerm c acc hcl htt⟩
      | false =>
        cases hbc : c.resultsBuf with
        | cons r rest => exact Or.inl ⟨_, Step.recvResult c acc r rest hcl hbc⟩
        | nil =>
          cases hwc : c.workers with
          | nil =>
            exfalso
            have hT := hidle acc hcl hwc htok
            rcases hterm hT with h | ⟨acc', h⟩
            · rw [htt] at h
              exact absurd h (by simp)
            · rw [hcl] at h
              exact absurd h (by simp)
          | cons w ws =>
            cases w with
            | bodyRun t =>
              exact Or.inl ⟨_, Step.runBody c [] ws t (by simpa using hwc)⟩
            | sendRes r =>
              exact Or.inl ⟨_, Step.sendResult c [] ws r (by simpa using hwc) hbc⟩
            | decRun =>
              exact Or.inl ⟨_, Step.decRunning c [] ws (by simpa using hwc)⟩
            | postCheck =>
              exact Or.inl ⟨_, Step.workerSignal c [] ws (by simpa using hwc)⟩

/-- Weight of a worker position: strictly decreasing along the worker
program, with enough slack at each action to pay for the tokens and
buffer entries it creates. -/
def phaseW : WorkerPhase ε → Nat
  | WorkerPhase.bodyRun _ => 8
  | WorkerPhase.sendRes _ => 7
  | WorkerPhase.decRun => 5
  | WorkerPhase.postCheck => 4

/-- Weight of a client position. -/
def clientW : ClientPhase ε → Nat
  | ClientPhase.submit ts0 => 7 + 20 * ts0.length
  | ClientPhase.submitCheck ts0 => 17 + 20 * ts0.length
  | ClientPhase.waitInit => 6
  | ClientPhase.waitTerm _ => 2
  | ClientPhase.waitLoop _ => 0
  | ClientPhase.ret _ => 0

/-- A global variant: every transition of the system strictly decreases
it, so no execution is infinite. -/
def potential (c : Conf ε) : Nat :=
  clientW c.client + 9 * c.queue.length + (c.workers.map phaseW).sum
    + c.resultsBuf.length + (if c.checkTok then 3 else 0)
    + (if c.termTok then 1 else 0)

theorem sum_phaseW_bodyRun (l : List (Option ε)) :
    ((l.map WorkerPhase.bodyRun).map phaseW).sum = 8 * l.length := by
  induction l with
  | nil => simp
  | cons t rest ih =>
    simp only [List.map_cons, List.sum_cons, ih, List.length_cons, phaseW]
    ring

theorem clientW_waitLoop (acc : List (TaskResult ε)) :
    clientW (ClientPhase.waitLoop acc) = 0 := rfl

theorem clientW_waitTerm (acc : List (TaskResult ε)) :
    clientW (ClientPhase.waitTerm acc) = 2 := rfl

theorem potential_applyCheck (c : Conf ε) (acc : List (TaskResult ε)) :
    potential (applyCheck c acc) + clientW c.client ≤ potential c + 2 := by
  by_cases hb : c.terminated = true
  · have hout : checkQueue c.terminated c.maxCount c.running c.queue
        = (⟨c.queue, c.running, [], false⟩ : CheckOut ε) := by
      simp [checkQueue, hb]
    simp only [applyCheck, hout, potential]
    simp only [List.map_nil, List.append_nil, Bool.false_eq_true, if_false,
      clientW_waitLoop]
    omega
  · by_cases hav : c.maxCount - c.running ≤ 0
    · have hb' : c.terminated = false := by
        cases hcb : c.terminated
        · rfl
        · exact absurd hcb hb
      have hout : checkQueue c.terminated c.maxCount c.running c.queue
          = (⟨c.queue, c.running, [], false⟩ : CheckOut ε) := by
        simp [checkQueue, hb', hav]
      simp only [applyCheck, hout, potential]
      simp only [List.map_nil, List.append_nil, Bool.false_eq_true, if_false,
        clientW_waitLoop]
      omega
    · have hb' : c.terminated = false := by
        cases hcb : c.terminated
        · rfl
        · exact absurd hcb hb
      have hout : checkQueue c.terminated c.maxCount c.running c.queue
          = checkLoop (c.maxCount - c.running).toNat c.queue c.running := by
        simp [checkQueue, hb', hav]
      have hs : (c.queue.take (c.maxCount - c.running).toNat).length ≤ c.queue.length := by
        simp [List.length_take]
      have hd : (c.queue.drop (c.maxCount - c.running).toNat).length
          = c.queue.length - (c.queue.take (c.maxCount - c.running).toNat).length := by
        simp only [List.length_take, List.length_drop]
        omega
      simp only [applyCheck, hout, checkLoop_started, checkLoop_queue, potential]
      cases hT : (checkLoop (c.maxCount - c.running).toNat c.queue c.running).terminate with
      | false =>
        simp only [hT, Bool.false_eq_true, if_false, clientW_waitLoop]
        rw [List.map_append, List.sum_append, sum_phaseW_bodyRun, hd]
        omega
      | true =>
        simp only [hT, if_true, clientW_waitTerm]
        rw [List.map_append, List.sum_append, sum_phaseW_bodyRun, hd]
        omega

theorem step_decreases {c c' : Conf ε} (h : Step c c') :
    potential c' < potential c := by
  cases h with
  | push t ts0 hcl =>
    simp only [potential, hcl, clientW]
    simp only [List.length_append, List.length_cons, List.length_nil]
    omega
  | submitSignal ts0 hcl =>
    simp only [potential, hcl, clientW, attemptCheck]
    cases htok : c.checkTok <;> simp [htok] <;> omega
  | callWait hcl =>
    simp only [potential, hcl, clientW]
    omega
  | initCheck hcl =>
    have hp := potential_applyCheck c ([] : List (TaskResult ε))
    rw [hcl] at hp
    simp only [clientW] at hp
    omega
  | recvCheck acc hcl htok =>
    have hp := potential_applyCheck { c with checkTok := false } acc
    have h0 : clientW c.client = 0 := by rw [hcl]; rfl
    rw [show ({ c with checkTok := false } : Conf ε).client = c.client from rfl, h0] at hp
    have hsplit : potential c = potential { c with checkTok := false } + 3 := by
      simp [potential, htok] <;> omega
    rw [hsplit]
    omega
  | recvResult acc r rest hcl hbufc =>
    simp only [potential, hcl, clientW_waitLoop, hbufc]
    simp only [List.length_cons]
    omega
  | recvTerm acc hcl htt =>
    simp only [potential, hcl, htt, clientW, if_true, Bool.false_eq_true, if_false]
    omega
  | fireTerm acc hcl =>
    by_cases hb : c.terminated = true
    · have hat : attemptTermination { c with client := ClientPhase.waitLoop acc }
          = { c with client := ClientPhase.waitLoop acc } := by
        simp [attemptTermination, hb]
      rw [hat]
      simp only [potential, hcl, clientW]
      omega
    · have hb' : c.terminated = false := by
        cases hcb : c.terminated
        · rfl
        · exact absurd hcb hb
      have hat : attemptTermination { c with client := ClientPhase.waitLoop acc }
          = { c with terminated := true, termTok := true, client := ClientPhase.waitLoop acc } := by
        simp [attemptTermination, hb']
      rw [hat]
      simp only [potential, hcl, clientW]
      cases htt : c.termTok <;> simp [htt] <;> omega
  | runBody l1 l2 t hws =>
    simp only [potential, hws]
    simp only [List.map_append, List.map_cons, List.sum_append, List.sum_cons, phaseW]
    omega
  | sendResult l1 l2 r hws hbufc =>
    simp only [potential, hws, hbufc]
    simp only [List.map_append, List.map_cons, List.sum_append, List.sum_cons, phaseW,
      List.length_cons, List.length_nil]
    omega
  | decRunning l1 l2 hws =>
    simp only [potential, hws]
    simp only [List.map_append, List.map_cons, List.sum_append, List.sum_cons, phaseW]
    omega
  | workerSignal l1 l2 hws =>
    simp only [potential, hws, attemptCheck]
    simp only [List.map_append, List.map_cons, List.sum_append, List.sum_cons, phaseW]
    cases htok : c.checkTok <;> simp [htok] <;> omega

theorem acc_of_potential : ∀ (n : Nat) (c : Conf ε), potential c < n →
    Acc (fun a b : Conf ε => Step b a) c
  | 0, _, h => absurd h (by omega)
  | n + 1, c, h =>
    Acc.intro c (fun c' hs =>
      acc_of_potential n c' (by have := step_decreases hs; omega))

theorem checkQueue_nil_queue (b : Bool) (mm r : Int) :
    (checkQueue b mm r ([] : List (Option ε))).queue = [] := by
  unfold checkQueue
  split
  · rfl
  · split
    · rfl
    · rw [checkLoop_queue]
      simp

theorem checkQueue_nil_started (b : Bool) (mm r : Int) :
    (checkQueue b mm r ([] : List (Option ε))).started = [] := by
  unfold checkQueue
  split
  · rfl
  · split
    · rfl
    · rw [checkLoop_started]
      simp

/-- Invariant for runs that submit no task at all: the queue, the worker
set, the results buffer and the accumulated result list all stay empty. -/
structure Inv0 (c : Conf ε) : Prop where
  hq : c.queue = []
  hw : c.workers = []
  hb : c.resultsBuf = []
  hacc : clientAcc c.client = []
  hsub : ∀ t ts0, c.client ≠ ClientPhase.submit (t :: ts0)
  hsc : ∀ ts0, c.client ≠ ClientPhase.submitCheck ts0

theorem inv0_init (n : Int) : Inv0 (init n ([] : List (Option ε))) :=
  ⟨rfl, rfl, rfl, rfl, fun t ts0 h => by simp [init, New] at h,
    fun ts0 h => by simp [init, New] at h⟩

theorem inv0_step {c c' : Conf ε} (hI : Inv0 c) (h : Step c c') : Inv0 c' := by
  obtain ⟨hq, hw, hb, hacc, hsub, hsc⟩ := hI
  cases h with
  | push t ts0 hcl => exact absurd hcl (hsub t ts0)
  | submitSignal ts0 hcl => exact absurd hcl (hsc ts0)
  | callWait hcl =>
    exact ⟨hq, hw, hb, rfl, fun t ts0 h => by simp at h, fun ts0 h => by simp at h⟩
  | initCheck hcl =>
    refine ⟨?_, ?_, hb, ?_, ?_, ?_⟩
    · dsimp only [applyCheck]
      rw [hq, checkQueue_nil_queue]
    · dsimp only [applyCheck]
      rw [hq, checkQueue_nil_started, hw]
      rfl
    · dsimp only [applyCheck]
      split
      · rfl
      · rfl
    · intro t ts0 h
      dsimp only [applyCheck] at h
      split at h <;> simp at h
    · intro ts0 h
      dsimp only [applyCheck] at h
      split at h <;> simp at h
  | recvCheck acc hcl htok =>
    have hacc0 : acc = [] := by
      rw [hcl] at hacc
      exact hacc
    subst hacc0
    refine ⟨?_, ?_, hb, ?_, ?_, ?_⟩
    · dsimp only [applyCheck]
      rw [show ({ c with checkTok := false } : Conf ε).queue = c.queue from rfl, hq,
        checkQueue_nil_queue]
    · dsimp only [applyCheck]
      rw [show ({ c with checkTok := false } : Conf ε).queue = c.queue from rfl, hq,
        checkQueue_nil_started]
      rw [show ({ c with checkTok := false } : Conf ε).workers = c.workers from rfl, hw]
      rfl
    · dsimp only [applyCheck]
      split
      · rfl
      · rfl
    · intro t ts0 h
      dsimp only [applyCheck] at h
      split at h <;> simp at h
    · intro ts0 h
      dsimp only [applyCheck] at h
      split at h <;> simp at h
  | recvResult acc r rest hcl hbufc =>
    rw [hb] at hbufc
    exact absurd hbufc (by simp)
  | recvTerm acc hcl =>
    have hacc0 : acc = [] := by
      rw [hcl] at hacc
      exact hacc
    subst hacc0
    exact ⟨hq, hw, hb, rfl, fun t ts0 h => by simp at h, fun ts0 h => by simp at h⟩
  | fireTerm acc hcl =>
    have hacc0 : acc = [] := by
      rw [hcl] at hacc
      exact hacc
    subst hacc0
    unfold attemptTermination
    split
    · exact ⟨hq, hw, hb, rfl, fun t ts0 h => by simp at h, fun ts0 h => by simp at h⟩
    · exact ⟨hq, hw, hb, rfl, fun t ts0 h => by simp at h, fun ts0 h => by simp at h⟩
  | runBody l1 l2 t hws =>
    rw [hw] at hws
    exact absurd hws.symm (by simp)
  | sendResult l1 l2 r hws hbufc =>
    rw [hw] at hws
    exact absurd hws.symm (by simp)
  | decRunning l1 l2 hws =>
    rw [hw] at hws
    exact absurd hws.symm (by simp)
  | workerSignal l1 l2 hws =>
    rw [hw] at hws
    exact absurd hws.symm (by simp)

theorem inv0_reach {n : Int} {c : Conf ε}
    (h : Reachable (init n ([] : List (Option ε))) c) : Inv0 c := by
  induction h with
  | refl => exact inv0_init n
  | tail hr hs ih => exact inv0_step ih hs

/-- Configuration reached in a run with limit 1 and one nil-returning
task, just after the termination signal has been fired: the single
outcome is still buffered in the results channel. -/
def termConf : Conf Nat :=
  { maxCount := 1, queue := [], running := 0, terminated := true,
    resultsBuf := [taskOutcome none], termTok := true, checkTok := false,
    workers := [], startedLog := [none], client := ClientPhase.waitLoop [] }

/-- Final configuration of the same run when the select resolves in
favor of the termination channel: Wait has returned the empty list while
the outcome of the single task is still buffered. -/
def dropConf : Conf Nat :=
  { maxCount := 1, queue := [], running := 0, terminated := true,
    resultsBuf := [taskOutcome none], termTok := false, checkTok := false,
    workers := [], startedLog := [none], client := ClientPhase.ret [] }

theorem reach_termConf : Reachable (init 1 [(none : Option Nat)]) termConf := by
  refine Relation.ReflTransGen.head (Step.push _ none [] rfl) ?_
  refine Relation.ReflTransGen.head (Step.submitSignal _ [] rfl) ?_
  refine Relation.ReflTransGen.head (Step.callWait _ rfl) ?_
  refine Relation.ReflTransGen.head (Step.initCheck _ rfl) ?_
  refine Relation.ReflTransGen.head (Step.runBody _ [] [] none rfl) ?_
  refine Relation.ReflTransGen.head (Step.sendResult _ [] [] (taskOutcome none) rfl rfl) ?_
  refine Relation.ReflTransGen.head (Step.decRunning _ [] [] rfl) ?_
  refine Relation.ReflTransGen.head (Step.workerSignal _ [] [] rfl) ?_
  refine Relation.ReflTransGen.head (Step.recvCheck _ [] rfl rfl) ?_
  refine Relation.ReflTransGen.head (Step.fireTerm _ [] rfl) ?_
  exact Relation.ReflTransGen.refl

theorem step_termConf_dropConf : Step termConf dropConf :=
  Step.recvTerm termConf [] rfl rfl

theorem reach_dropConf : Reachable (init 1 [(none : Option Nat)]) dropConf :=
  Relation.ReflTransGen.tail reach_termConf step_termConf_dropConf

/-- Final configuration of the run with limit 1 and no task at all. -/
def emptyConf : Conf Nat :=
  { maxCount := 1, queue := [], running := 0, terminated := true,
    resultsBuf := [], termTok := false, checkTok := false,
    workers := [], startedLog := [], client := ClientPhase.ret [] }

theorem reach_emptyConf : Reachable (init 1 ([] : List (Option Nat))) emptyConf := by
  refine Relation.ReflTransGen.head (Step.callWait _ rfl) ?_
  refine Relation.ReflTransGen.head (Step.initCheck _ rfl) ?_
  refine Relation.ReflTransGen.head (Step.fireTerm _ [] rfl) ?_
  refine Relation.ReflTransGen.head (Step.recvTerm _ [] rfl rfl) ?_
  exact Relation.ReflTransGen.refl

theorem emptyConf_stuck : ¬ ∃ c', Step emptyConf c' := by
  rintro ⟨c', hs⟩
  cases hs <;> simp_all [emptyConf]

/-- C1: the claim that Wait always returns exactly K outcomes when K
tasks were submitted before Wait fails on the code. With limit 1 and one
nil-returning task there is a legal interleaving (a Go select picks
uniformly among ready cases) in which the termination signal is consumed
while the task outcome is still buffered in the results channel, so Wait
returns the empty list: zero outcomes for one submitted task. -/
theorem wait_drops_outcome_on_race :
    Reachable (init 1 [(none : Option Nat)]) dropConf ∧
    dropConf.client = ClientPhase.ret [] ∧
    dropConf.resultsBuf = [taskOutcome none] ∧
    ([] : List (TaskResult Nat)).length = 0 ∧ [(none : Option Nat)].length = 1 :=
  ⟨reach_dropConf, rfl, rfl, rfl, rfl⟩

/-- C2: in every reachable configuration, under every interleaving, the
running count satisfies 0 <= running <= limit, where the limit is the
clamped value fixed by New. -/
theorem running_within_limit {ε : Type} (n : Int) (ts : List (Option ε)) (c : Conf ε)
    (h : Reachable (init n ts) c) :
    0 ≤ c.running ∧ c.running ≤ c.maxCount ∧
      c.maxCount = (if n ≤ 0 then 1 else n) := by
  obtain ⟨hmc, hmax, hcount, hcap, _, _, _, _, _, _, _⟩ := inv_reach h
  exact ⟨by omega, by omega, hmc⟩

theorem running_within_limit_check :
    0 ≤ (init 2 [(none : Option Nat)]).running ∧
    (init 2 [(none : Option Nat)]).running ≤ (init 2 [(none : Option Nat)]).maxCount ∧
    (init 2 [(none : Option Nat)]).maxCount = (if (2 : Int) ≤ 0 then 1 else 2) :=
  running_within_limit 2 [none] _ Relation.ReflTransGen.refl

/-- C3: a nil-returning body is recorded as Success = true with Err =
none, a body returning error e as Success = false with Err = some e, and
Err is none exactly when Success is true. -/
theorem outcome_fidelity (ε : Type) :
    taskOutcome (none : Option ε) = { Success := true, Err := none } ∧
    (∀ e : ε, taskOutcome (some e) = { Success := false, Err := some e }) ∧
    ∀ o : Option ε, ((taskOutcome o).Err = none ↔ (taskOutcome o).Success = true) := by
  refine ⟨rfl, fun e => rfl, fun o => ?_⟩
  cases o <;> simp [taskOutcome]

/-- C4: for every limit and every finite submission list, the executor
never deadlocks: every execution is finite (the step relation is
well-founded below any reachable configuration) and any configuration
with no enabled transition has Wait already returned. -/
theorem wait_always_returns {ε : Type} (n : Int) (ts : List (Option ε)) (c : Conf ε)
    (h : Reachable (init n ts) c) :
    Acc (fun a b : Conf ε => Step b a) c ∧
      ((¬ ∃ c', Step c c') → ∃ acc, c.client = ClientPhase.ret acc) := by
  constructor
  · exact acc_of_potential (potential c + 1) c (by omega)
  · intro hstuck
    rcases progress (inv_reach h) with hstep | hret
    · exact absurd hstep hstuck
    · exact hret

theorem wait_always_returns_check :
    Acc (fun a b : Conf Nat => Step b a) (init 1 [(none : Option Nat)]) ∧
      ((¬ ∃ c', Step (init 1 [(none : Option Nat)]) c') →
        ∃ acc, (init 1 [(none : Option Nat)]).client = ClientPhase.ret acc) :=
  wait_always_returns 1 [none] _ Relation.ReflTransGen.refl

/-- C5: New n yields effective limit n when n > 0 and 1 when n <= 0,
with an empty pending queue, running count zero and terminated false. -/
theorem new_fresh_state (ε : Type) (n : Int) :
    (New ε n).maxCount = (if 0 < n then n else 1) ∧ (New ε n).queue = [] ∧
    (New ε n).running = 0 ∧ (New ε n).terminated = false := by
  refine ⟨?_, rfl, rfl, rfl⟩
  simp only [New]
  split_ifs <;> omega

/-- C6: admission is strictly FIFO: Run appends at the tail, checkQueue
always launches a prefix taken from the head (leaving the remainder in
order), and along every run the launch log is a prefix of the submission
list, so with limit 1 tasks start in exact submission order. -/
theorem fifo_admission (ε : Type) :
    (∀ (p : Pool ε) (t : Option ε), (pushToQueue p t).queue = p.queue ++ [t]) ∧
    (∀ (b : Bool) (mm r : Int) (q : List (Option ε)),
      (checkQueue b mm r q).started ++ (checkQueue b mm r q).queue = q) ∧
    (∀ (ts : List (Option ε)) (c : Conf ε), Reachable (init 1 ts) c →
      ∃ rest, c.startedLog ++ rest = ts) := by
  refine ⟨fun p t => rfl, fun b mm r q => ?_, fun ts c h => ?_⟩
  · unfold checkQueue
    split
    · simp
    · split
      · simp
      · rw [checkLoop_started, checkLoop_queue, List.take_append_drop]
  · obtain ⟨_, _, _, _, _, _, _, _, _, _, hlog⟩ := inv_reach h
    exact ⟨c.queue ++ clientRemaining c.client, by simpa [List.append_assoc] using hlog⟩

theorem fifo_admission_check :
    ∃ rest, termConf.startedLog ++ rest = [(none : Option Nat)] :=
  (fifo_admission Nat).2.2 [none] termConf reach_termConf

/-- C7: the terminated flag is monotone along every transition, it flips
from false to true only in a state whose pending queue is empty and whose
running count is zero, and the termination signal token is raised only at
that unique flip, so the terminal signal fires at most once. -/
theorem terminated_one_shot {ε : Type} (n : Int) (ts : List (Option ε)) (c c' : Conf ε)
    (hr : Reachable (init n ts) c) (hs : Step c c') :
    (c.terminated = true → c'.terminated = true) ∧
    (c.terminated = false → c'.terminated = true → c.queue = [] ∧ c.running = 0) ∧
    (c.termTok = false → c'.termTok = true →
      c.terminated = false ∧ c'.terminated = true) := by
  obtain ⟨hmc, hmax, hcount, hcap, hbuf, hpre, hqtok, hterm, hidle, hwt, hlog⟩ :=
    inv_reach hr
  cases hs with
  | push t ts0 hcl =>
    exact ⟨fun h => h, fun hF hT => absurd hT (by simp [hF]),
      fun hF hT => absurd hT (by simp [hF])⟩
  | submitSignal ts0 hcl =>
    exact ⟨fun h => h, fun hF hT => absurd hT (by simp [attemptCheck, hF]),
      fun hF hT => absurd hT (by simp [attemptCheck, hF])⟩
  | callWait hcl =>
    exact ⟨fun h => h, fun hF hT => absurd hT (by simp [hF]),
      fun hF hT => absurd hT (by simp [hF])⟩
  | initCheck hcl =>
    exact ⟨fun h => h, fun hF hT => absurd hT (by simp [applyCheck, hF]),
      fun hF hT => absurd hT (by simp [applyCheck, hF])⟩
  | recvCheck acc hcl htok =>
    exact ⟨fun h => h, fun hF hT => absurd hT (by simp [applyCheck, hF]),
      fun hF hT => absurd hT (by simp [applyCheck, hF])⟩
  | recvResult acc r rest hcl hbufc =>
    exact ⟨fun h => h, fun hF hT => absurd hT (by simp [hF]),
      fun hF hT => absurd hT (by simp [hF])⟩
  | recvTerm acc hcl htt =>
    exact ⟨fun h => h, fun hF hT => absurd hT (by simp [hF]),
      fun hF hT => absurd hT (by simp)⟩
  | fireTerm acc hcl =>
    obtain ⟨hq0, hr0, hT0⟩ := hwt acc hcl
    have hat : attemptTermination { c with client := ClientPhase.waitLoop acc }
        = { c with terminated := true, termTok := true, client := ClientPhase.waitLoop acc } := by
      simp [attemptTermination, hT0]
    rw [hat]
    exact ⟨fun _ => rfl, fun _ _ => ⟨hq0, hr0⟩, fun _ _ => ⟨hT0, rfl⟩⟩
  | runBody l1 l2 t hws =>
    exact ⟨fun h => h, fun hF hT => absurd hT (by simp [hF]),
      fun hF hT => absurd hT (by simp [hF])⟩
  | sendResult l1 l2 r hws hbufc =>
    exact ⟨fun h => h, fun hF hT => absurd hT (by simp [hF]),
      fun hF hT => absurd hT (by simp [hF])⟩
  | decRunning l1 l2 hws =>
    exact ⟨fun h => h, fun hF hT => absurd hT (by simp [hF]),
      fun hF hT => absurd hT (by simp [hF])⟩
  | workerSignal l1 l2 hws =>
    exact ⟨fun h => h, fun hF hT => absurd hT (by simp [attemptCheck, hF]),
      fun hF hT => absurd hT (by simp [attemptCheck, hF])⟩

theorem terminated_one_shot_check :
    (termConf.terminated = true → dropConf.terminated = true) ∧
    (termConf.terminated = false → dropConf.terminated = true →
      termConf.queue = [] ∧ termConf.running = 0) ∧
    (termConf.termTok = false → dropConf.termTok = true →
      termConf.terminated = false ∧ dropConf.terminated = true) :=
  terminated_one_shot 1 [none] termConf dropConf reach_termConf step_termConf_dropConf

/-- C8: with zero submitted tasks, every completed run has Wait returning
the empty list: any reachable configuration with no enabled transition is
one in which Wait has returned the empty result list (and by C4's
variant argument every run does reach such a configuration). -/
theorem wait_on_no_tasks_returns_nil {ε : Type} (n : Int) (c : Conf ε)
    (h : Reachable (init n ([] : List (Option ε))) c)
    (hstuck : ¬ ∃ c', Step c c') :
    c.client = ClientPhase.ret [] := by
  rcases progress (inv_reach h) with hstep | ⟨acc, hret⟩
  · exact absurd hstep hstuck
  · obtain ⟨_, _, _, hacc, _, _⟩ := inv0_reach h
    rw [hret] at hacc
    have hacc0 : acc = [] := by simpa [clientAcc] using hacc
    rw [hret, hacc0]

theorem wait_on_no_tasks_returns_nil_check : emptyConf.client = ClientPhase.ret [] :=
  wait_on_no_tasks_returns_nil 1 emptyConf reach_emptyConf emptyConf_stuck

/-- C9: a call to checkQueue on a non-terminated pool with spare capacity
launches exactly min(pending length, limit - running) tasks, removes that
prefix from the head of the queue and increases running by the same
count; with no spare capacity it changes nothing and launches nothing. -/
theorem checkQueue_admits_min (ε : Type) (mm r : Int) (q : List (Option ε)) :
    (0 < mm - r →
      (checkQueue false mm r q).started.length = min q.length (mm - r).toNat ∧
      (checkQueue false mm r q).queue = q.drop (mm - r).toNat ∧
      (checkQueue false mm r q).running
        = r + ((min q.length (mm - r).toNat : Nat) : Int)) ∧
    (mm - r ≤ 0 → checkQueue false mm r q = ⟨q, r, [], false⟩) := by
  constructor
  · intro hpos
    have hne : ¬ (mm - r ≤ 0) := by omega
    simp only [checkQueue, Bool.false_eq_true, if_false, if_neg hne]
    refine ⟨?_, checkLoop_queue _ _ _, ?_⟩
    · rw [checkLoop_started, List.length_take]
      omega
    · rw [checkLoop_running, List.length_take]
      push_cast
      omega
  · intro hle
    simp [checkQueue, hle]

theorem checkQueue_admits_min_check :
    (checkQueue false 2 0 [(none : Option Nat), none, none]).started.length
        = min [(none : Option Nat), none, none].length ((2 : Int) - 0).toNat ∧
    (checkQueue false 2 0 [(none : Option Nat), none, none]).queue
        = [(none : Option Nat), none, none].drop ((2 : Int) - 0).toNat ∧
    (checkQueue false 2 0 [(none : Option Nat), none, none]).running
        = 0 + ((min [(none : Option Nat), none, none].length ((2 : Int) - 0).toNat : Nat) : Int) :=
  (checkQueue_admits_min Nat 2 0 [none, none, none]).1 (by decide)

/-- C10: on a terminated pool checkQueue is a no-op that launches
nothing, and along any reachable transition taken from a terminated
configuration the queue and the launch log are unchanged (no task is
ever started after termination) and the flag stays set. -/
theorem checkQueue_terminated_frame (ε : Type) :
    (∀ (mm r : Int) (q : List (Option ε)),
      checkQueue true mm r q = ⟨q, r, [], false⟩) ∧
    (∀ (n : Int) (ts : List (Option ε)) (c c' : Conf ε),
      Reachable (init n ts) c → c.terminated = true → Step c c' →
      c'.queue = c.queue ∧ c'.startedLog = c.startedLog ∧ c'.terminated = true) := by
  constructor
  · intro mm r q
    simp [checkQueue]
  · intro n ts c c' hr hT hs
    obtain ⟨hmc, hmax, hcount, hcap, hbuf, hpre, hqtok, hterm, hidle, hwt, hlog⟩ :=
      inv_reach hr
    cases hs with
    | push t ts0 hcl =>
      have := (hpre (by rw [hcl]; trivial)).2.2.2.1
      rw [hT] at this
      exact absurd this (by simp)
    | submitSignal ts0 hcl =>
      have := (hpre (by rw [hcl]; trivial)).2.2.2.1
      rw [hT] at this
      exact absurd this (by simp)
    | callWait hcl =>
      have := (hpre (by rw [hcl]; trivial)).2.2.2.1
      rw [hT] at this
      exact absurd this (by simp)
    | initCheck hcl =>
      have := (hpre (by rw [hcl]; trivial)).2.2.2.1
      rw [hT] at this
      exact absurd this (by simp)
    | recvCheck acc hcl htok =>
      refine ⟨?_, ?_, hT⟩ <;> simp [applyCheck, checkQueue, hT]
    | recvResult acc r rest hcl hbufc => exact ⟨rfl, rfl, hT⟩
    | recvTerm acc hcl htt => exact ⟨rfl, rfl, hT⟩
    | fireTerm acc hcl =>
      have := (hwt acc hcl).2.2
      rw [hT] at this
      exact absurd this (by simp)
    | runBody l1 l2 t hws => exact ⟨rfl, rfl, hT⟩
    | sendResult l1 l2 r hws hbufc => exact ⟨rfl, rfl, hT⟩
    | decRunning l1 l2 hws => exact ⟨rfl, rfl, hT⟩
    | workerSignal l1 l2 hws => exact ⟨rfl, rfl, hT⟩

theorem checkQueue_terminated_frame_check :
    checkQueue true 5 2 [(none : Option Nat)]
        = ⟨[(none : Option Nat)], 2, [], false⟩ ∧
    (dropConf.queue = termConf.queue ∧ dropConf.startedLog = termConf.startedLog ∧
      dropConf.terminated = true) :=
  ⟨(checkQueue_terminated_frame Nat).1 5 2 [none],
   (checkQueue_terminated_frame Nat).2 1 [none] termConf dropConf
     reach_termConf rfl step_termConf_dropConf⟩

end GoConc
